import Mathlib

/-!
Verification of the books-dashboard data pipeline.

The development shallowly embeds the two Python source files of the
repository:

* `scrape_books.py` — the catalog crawler; here only its pure field
  parser `clean_price` matters for the claims.
* `main.py` — the dashboard; its data core is `load_data` (schema
  resolution + cell cleaning + row dropping), `calculate_kpis`, and the
  sidebar filter expression in `main`.

Modelling conventions:

* A raw CSV cell is `Option String`: `none` is a missing value (pandas
  `NaN`), `some s` is the cell text.  `pandas.read_csv` yields strings
  or `NaN` for every cell, so this is the exact value universe of the
  loaded table.
* Python floats are modelled as `ℚ`.  Every numeric value the claims
  touch (prices such as `12.50`, ratings `1..5`, percentages) is exactly
  representable, so no rounding behaviour is lost.
* `float(...)` / `pd.to_numeric` are modelled on their plain decimal
  fragment (optional sign, digits, at most one `'.'`); exotic inputs
  (exponents, `inf`) are outside the fragment the program's data and the
  claims exercise.
* String helpers (`strip`, `lower`, substring test) are written on
  `List Char` so that concrete instances reduce by `decide`/`rfl`.
  The inputs of the program are ASCII apart from `£`, for which these
  models agree with Python's semantics.
-/

set_option autoImplicit false

namespace BooksDashboard

/-! ## Python string primitives -/

/-- Model of Python `str.strip()` on the character list: drop whitespace
from both ends. -/
def trimWS (l : List Char) : List Char :=
  ((l.dropWhile Char.isWhitespace).reverse.dropWhile Char.isWhitespace).reverse

/-- Model of Python `str.strip()`. -/
def pyStrip (s : String) : String :=
  String.mk (trimWS s.toList)

/-- Model of Python `str.lower()` (ASCII case folding, which covers every
string the program manipulates). -/
def pyLower (s : String) : String :=
  String.mk (s.toList.map Char.toLower)

/-- Substring test on character lists: does `n` occur contiguously in `l`?
Models Python's `needle in hay`. -/
def hasSubList : List Char → List Char → Bool
  | [], n => n.isEmpty
  | c :: t, n => n.isPrefixOf (c :: t) || hasSubList t n

/-- Model of Python `needle in hay` for strings. -/
def strHasSub (hay needle : String) : Bool :=
  hasSubList hay.toList needle.toList

/-! ## Numeric parsing (model of Python `float` / `pd.to_numeric`) -/

/-- Numeric value of a digit list, most significant first. -/
def digitsVal (l : List Char) : ℕ :=
  l.foldl (fun a c => 10 * a + (c.toNat - 48)) 0

/-- Are all characters ASCII digits? -/
def allDigits (l : List Char) : Bool :=
  l.all Char.isDigit

/-- Split a character list at every `'.'` (model of `"x.y".split('.')`,
used to express "at most one decimal point"). -/
def splitDot : List Char → List (List Char)
  | [] => [[]]
  | '.' :: t => [] :: splitDot t
  | c :: t =>
    match splitDot t with
    | [] => [[c]]
    | h :: r => (c :: h) :: r

/-- Parse an unsigned decimal literal: digits with at most one `'.'` and
at least one digit in total (`"12"`, `"12.5"`, `".5"`, `"5."`), exactly
the strings Python's `float` accepts once sign and exotica are removed. -/
def parseDec (l : List Char) : Option ℚ :=
  match splitDot l with
  | [a] => if !a.isEmpty && allDigits a then some (digitsVal a : ℚ) else none
  | [a, b] =>
    if (!a.isEmpty || !b.isEmpty) && allDigits a && allDigits b then
      some ((digitsVal a : ℚ) + (digitsVal b : ℚ) / (10 : ℚ) ^ b.length)
    else none
  | _ => none

/-- Model of Python `float(s)` and of `pd.to_numeric(s, errors='coerce')`
on the decimal fragment: an optional leading sign followed by an unsigned
decimal literal; `none` is a parse failure (resp. `NaN`). -/
def toNumericL : List Char → Option ℚ
  | [] => none
  | c :: t =>
    if c = '-' then (parseDec t).map (fun q => -q)
    else if c = '+' then parseDec t
    else parseDec (c :: t)

/-- String-level wrapper for `toNumericL`. -/
def toNumeric (s : String) : Option ℚ :=
  toNumericL s.toList

/-! ## Crawler field parser (`scrape_books.py`, lines 16–29) -/

/-- Model of `re.sub(r'[^0-9.]', '', s)`: keep only digits and `'.'`. -/
def priceFilter (l : List Char) : List Char :=
  l.filter (fun c => c.isDigit || c == '.')

/-- The crawler's price parser (`clean_price`, `scrape_books.py` 16–29):
strip (the `encode('utf-8','ignore').decode` step is the identity on
valid text, which is all this model's strings are), keep only digits and
`'.'`, parse as float; on failure warn (a side effect outside the model)
and return `0.0` instead of dropping the item. -/
def clean_price (s : String) : ℚ :=
  match toNumeric (String.mk (priceFilter (pyStrip s).toList)) with
  | some q => q
  | none => 0

/-! ## Raw cells and the cell cleaners of `load_data` (`main.py` 98–108) -/

/-- A raw table cell as produced by `pandas.read_csv`: `none` is a
missing value (`NaN`), `some s` is the cell's text. -/
abbrev Cell := Option String

/-- Model of `series.astype(str)` on one cell: pandas renders a missing
value as the string `"nan"`. -/
def pyAstypeStr (c : Cell) : String :=
  c.getD "nan"

/-- Model of `.str.replace(r'[£,$]', '', regex=True)` (`main.py` 98):
delete every `£`, `,` and `$`. -/
def stripCurrency (s : String) : String :=
  String.mk (s.toList.filter (fun c => !(c == '£' || c == ',' || c == '$')))

/-- Character-list worker for `.str.replace('N/A', '')`: delete every
(left-to-right, non-overlapping) occurrence of `N/A`. -/
def removeNAL : List Char → List Char
  | 'N' :: '/' :: 'A' :: t => removeNAL t
  | c :: t => c :: removeNAL t
  | [] => []

/-- Model of `.str.replace('N/A', '')` (`main.py` 98). -/
def removeNA (s : String) : String :=
  String.mk (removeNAL s.toList)

/-- The Price cell cleaner (`main.py` 98–99): stringify (so a missing
cell becomes `"nan"`), drop currency characters, drop `N/A`, strip, then
`pd.to_numeric(errors='coerce')`; `none` is `NaN` (parse failure). -/
def cleanPriceCell (c : Cell) : Option ℚ :=
  toNumeric (pyStrip (removeNA (stripCurrency (pyAstypeStr c))))

/-- The word-to-number table of `clean_rating` (`main.py` 104). -/
def wordToNum (s : String) : Option ℕ :=
  if s = "one" then some 1
  else if s = "two" then some 2
  else if s = "three" then some 3
  else if s = "four" then some 4
  else if s = "five" then some 5
  else none

/-- The Rating cell cleaner (`clean_rating`, `main.py` 100–106): missing
stays missing; otherwise strip, parse a pure digit string directly
(`re.match(r'^\d+$', s)`), else map the lower-cased word through
`word_to_num`, else `NaN`. -/
def clean_rating (c : Cell) : Option ℚ :=
  match c with
  | none => none
  | some x =>
    let s := pyStrip x
    if !s.toList.isEmpty && allDigits s.toList then some (digitsVal s.toList : ℚ)
    else
      match wordToNum (pyLower s) with
      | some n => some (n : ℚ)
      | none => none

/-- The Availability cell cleaner (`main.py` 108): `astype(str)` then
strip.  Note a missing cell becomes the literal string `"nan"`, so the
cleaned Availability column never contains a null. -/
def cleanAvail (c : Cell) : String :=
  pyStrip (pyAstypeStr c)

/-! ## Schema resolution (`main.py` 78–97)

The Python code builds `column_mapping`, a `dict` from input column name
to canonical field, by a first-match `if/elif` chain over the columns in
input order; we model the dict as an insertion-ordered association list
with Python's key-update semantics. -/

/-- Insertion-ordered association list modelling a Python `dict`
from column name to canonical field. -/
abbrev ColDict := List (String × String)

/-- The keys of the dict, in insertion order. -/
def dictKeys (d : ColDict) : List String :=
  d.map Prod.fst

/-- Model of `v in d.values()`. -/
def dictHasVal (d : ColDict) (v : String) : Bool :=
  d.any (fun p => p.2 == v)

/-- Model of `d.get(k)` (first — and for a Python dict only — entry with
key `k`). -/
def dictGet (d : ColDict) (k : String) : Option String :=
  (d.find? (fun p => p.1 == k)).map Prod.snd

/-- Model of `d[k] = v`: update the value in place if the key exists
(keeping its position), else append. -/
def dictSet : ColDict → String → String → ColDict
  | [], k, v => [(k, v)]
  | (k', v') :: d, k, v =>
    if k' = k then (k, v) :: d else (k', v') :: dictSet d k v

/-- One iteration of the column-mapping loop (`main.py` 80–89): lower
the column name and run the `if/elif` chain; each branch fires only if
its keyword occurs in the lowered name and its canonical field is not
yet among the dict's values. -/
def mapStep (d : ColDict) (col : String) : ColDict :=
  let cl := pyLower col
  if strHasSub cl "title" && !dictHasVal d "Title" then dictSet d col "Title"
  else if strHasSub cl "price" && !dictHasVal d "Price" then dictSet d col "Price"
  else if strHasSub cl "rating" && !dictHasVal d "Rating" then dictSet d col "Rating"
  else if (strHasSub cl "availability" || strHasSub cl "avail") && !dictHasVal d "Availability" then
    dictSet d col "Availability"
  else d

/-- The full `column_mapping` dict built from the (already stripped)
column names in input order. -/
def columnMapping (cols : List String) : ColDict :=
  cols.foldl mapStep []

/-- The canonical fields, in the fixed precedence (and reporting) order
of `required_cols` (`main.py` 92). -/
def requiredCols : List String :=
  ["Title", "Price", "Rating", "Availability"]

/-- Model of `df.rename(columns=column_mapping)` on one column name:
mapped columns take their canonical name, unmapped ones keep theirs. -/
def renameCol (d : ColDict) (c : String) : String :=
  (dictGet d c).getD c

/-! ## The Normalizer (`load_data`, `main.py` 64–111) -/

/-- A raw tabular input: header row plus rows of cells, aligned
positionally with the headers (a short row reads as missing cells, as
`read_csv` pads). -/
structure RawTable where
  headers : List String
  rows : List (List Cell)

/-- One row of the canonical frame: the four columns the dashboard's
data core consumes (`load_data` keeps any extra columns too; they are
untouched by cleaning and by every claim, so the model projects them
away). -/
structure CanonRow where
  title : String
  price : ℚ
  rating : ℚ
  avail : String
deriving DecidableEq, Repr

/-- Row-level composition of the column cleaners and of
`df.dropna(subset=['Title','Price','Rating','Availability'])`
(`main.py` 98–109): the row survives iff its Title cell is non-null and
its Price and Rating cells clean to a number; the cleaned Availability
column is a string column (a missing cell became `"nan"`), so its
`dropna` clause never removes anything. -/
def normalizeRow (tc pc rc ac : Cell) : Option CanonRow :=
  match tc, cleanPriceCell pc, clean_rating rc with
  | some t, some p, some r => some ⟨t, p, r, cleanAvail ac⟩
  | _, _, _ => none

/-- The Normalizer (`load_data`, `main.py` 64–111), after the file has
been read: strip the headers, build `column_mapping`, rename, keep the
first column of each duplicated name (`df.loc[:, ~df.columns.duplicated()]`
— hence selection by canonical name below uses the FIRST matching
position, `findIdx`), fail with the full missing-column list if a
required column is absent, else clean the cells column-wise and drop the
invalid rows (`dropna` + `reset_index` keep the survivors in input
order).  File-system errors (`FileNotFoundError`) are I/O, outside the
model. -/
def load_data (t : RawTable) : Except (List String) (List CanonRow) :=
  let cols := t.headers.map pyStrip
  let d := columnMapping cols
  let renamed := cols.map (renameCol d)
  let missing := requiredCols.filter (fun c => !(renamed.contains c))
  if missing.isEmpty then
    let iT := renamed.findIdx (· == "Title")
    let iP := renamed.findIdx (· == "Price")
    let iR := renamed.findIdx (· == "Rating")
    let iA := renamed.findIdx (· == "Availability")
    .ok (t.rows.filterMap (fun row =>
      normalizeRow (row.getD iT none) (row.getD iP none)
        (row.getD iR none) (row.getD iA none)))
  else .error missing

/-- The column position `load_data` reads a canonical field from: the
first position of the renamed (stripped, mapped) headers carrying that
canonical name — the same `findIdx` expressions `load_data` uses. -/
def resolvedIdx (t : RawTable) (f : String) : ℕ :=
  ((t.headers.map pyStrip).map
    (renameCol (columnMapping (t.headers.map pyStrip)))).findIdx (· == f)

/-- The raw cell of `row` that `load_data` reads for canonical field
`f` of table `t` (missing when the row is shorter). -/
def cellAt (t : RawTable) (row : List Cell) (f : String) : Cell :=
  row.getD (resolvedIdx t f) none

/-! ## KPIs and filtering (`main.py` 114–123 and 252–257) -/

/-- Model of `series.str.contains('In stock', case=False)` on one cell
(the pattern has no regex metacharacters, so it is a case-insensitive
substring test). -/
def containsInStock (s : String) : Bool :=
  strHasSub (pyLower s) "in stock"

/-- Fold computing `series.min()`: `none` on an empty column (pandas
`NaN`). -/
def colMin : List ℚ → Option ℚ
  | [] => none
  | x :: t =>
    match colMin t with
    | none => some x
    | some m => some (min x m)

/-- Fold computing `series.max()`: `none` on an empty column. -/
def colMax : List ℚ → Option ℚ
  | [] => none
  | x :: t =>
    match colMax t with
    | none => some x
    | some m => some (max x m)

/-- The KPI record (`calculate_kpis`, `main.py` 114–123).  `none` models
the `NaN` that pandas `mean`/`min`/`max` return on an empty frame. -/
structure KPISet where
  avg_price : Option ℚ
  avg_rating : Option ℚ
  total_books : ℕ
  in_stock : ℕ
  min_price : Option ℚ
  max_price : Option ℚ
  availability_rate : ℚ
deriving DecidableEq, Repr

/-- `calculate_kpis` (`main.py` 114–123).  The canonical frame always
has the four columns, so the `if 'X' in df.columns` guards all take the
then-branch.  `availability_rate` is `in_stock / total_books * 100`,
guarded to `0` when the frame is empty. -/
def calculate_kpis (df : List CanonRow) : KPISet :=
  let total := df.length
  let inS := (df.filter (fun r => containsInStock r.avail)).length
  ⟨if total = 0 then none else some ((df.map CanonRow.price).sum / (total : ℚ)),
   if total = 0 then none else some ((df.map CanonRow.rating).sum / (total : ℚ)),
   total,
   inS,
   colMin (df.map CanonRow.price),
   colMax (df.map CanonRow.price),
   if 0 < total then (inS : ℚ) / (total : ℚ) * 100 else 0⟩

/-- The sidebar filter (`main.py` 252–257): conjunction of rating
membership, inclusive price bounds and availability membership. -/
def filterFrame (df : List CanonRow) (ratings : List ℚ) (lo hi : ℚ)
    (avails : List String) : List CanonRow :=
  df.filter (fun r =>
    ratings.contains r.rating && decide (lo ≤ r.price) &&
      decide (r.price ≤ hi) && avails.contains r.avail)

/-! ## Spec-side schema resolvers

Two further resolvers, written from the words of the specification
rather than from the source, to compare against `columnMapping`:
a per-field map is kept instead of the code's name-keyed dict. -/

/-- Assignment state of the four canonical fields. -/
structure FieldMap where
  title : Option String
  price : Option String
  rating : Option String
  avail : Option String
deriving DecidableEq, Repr

/-- Look a canonical field up in a `FieldMap`. -/
def FieldMap.get (m : FieldMap) (f : String) : Option String :=
  if f = "Title" then m.title
  else if f = "Price" then m.price
  else if f = "Rating" then m.rating
  else if f = "Availability" then m.avail
  else none

/-- Assign a canonical field in a `FieldMap`. -/
def FieldMap.set (m : FieldMap) (f : String) (c : String) : FieldMap :=
  if f = "Title" then ⟨some c, m.price, m.rating, m.avail⟩
  else if f = "Price" then ⟨m.title, some c, m.rating, m.avail⟩
  else if f = "Rating" then ⟨m.title, m.price, some c, m.avail⟩
  else if f = "Availability" then ⟨m.title, m.price, m.rating, some c⟩
  else m

/-- The keyword predicate of each canonical field on a lowered column
name (`'title' in col_lower`, …). -/
def fieldKeyMatch (f : String) (cl : String) : Bool :=
  if f = "Title" then strHasSub cl "title"
  else if f = "Price" then strHasSub cl "price"
  else if f = "Rating" then strHasSub cl "rating"
  else if f = "Availability" then strHasSub cl "availability" || strHasSub cl "avail"
  else false

/-- Modelled from the spec, fall-through reading (amended C4): a column
is assigned to the first canonical field, in precedence order, whose
keyword matches the lowered name and which is still unassigned; if every
matching field is taken the column is ignored. -/
def fallStep (m : FieldMap) (col : String) : FieldMap :=
  match requiredCols.find? (fun f => fieldKeyMatch f (pyLower col) && (m.get f).isNone) with
  | some f => m.set f col
  | none => m

/-- Fall-through resolver over a column list. -/
def specFallThrough (cols : List String) : FieldMap :=
  cols.foldl fallStep ⟨none, none, none, none⟩

/-- Modelled from the claim C4 as stated (strict reading): the FIRST
matching keyword predicate alone decides a column's destination; if that
destination is already assigned, the column is ignored entirely. -/
def strictStep (m : FieldMap) (col : String) : FieldMap :=
  match requiredCols.find? (fun f => fieldKeyMatch f (pyLower col)) with
  | some f => if (m.get f).isNone then m.set f col else m
  | none => m

/-- Strict first-predicate resolver over a column list. -/
def specStrictResolve (cols : List String) : FieldMap :=
  cols.foldl strictStep ⟨none, none, none, none⟩

/-- The source column a dict assigns to a canonical field: the first
entry whose value is the field, if any. -/
def dictFieldSource (d : ColDict) (f : String) : Option String :=
  (d.find? (fun p => p.2 == f)).map Prod.fst

/-- The per-field view of the code's final `column_mapping`: the first
dict entry whose value is the field, if any (`main.py` checks
`'Price' in column_mapping.values()`; for a loop without key collisions
this is THE source column of the field). -/
def codeFieldSource (cols : List String) (f : String) : Option String :=
  dictFieldSource (columnMapping cols) f

/-- All four fields of `codeFieldSource` as a `FieldMap`. -/
def codeFieldView (cols : List String) : FieldMap :=
  ⟨codeFieldSource cols "Title", codeFieldSource cols "Price",
   codeFieldSource cols "Rating", codeFieldSource cols "Availability"⟩

/-! ## Canonical raw tables (for the idempotence claim C3) -/

/-- Is a price string already clean: untouched by the currency strip,
the `N/A` removal and the whitespace strip, and parsing to a
non-negative number? -/
def cleanPriceStr (p : String) : Bool :=
  stripCurrency p == p && removeNA p == p && pyStrip p == p &&
    match toNumeric p with
    | some q => decide (0 ≤ q)
    | none => false

/-- Is a rating cell already clean and canonical: already stripped and
cleaning to one of `1..5`? -/
def cleanRatingStr (r : String) : Bool :=
  pyStrip r == r &&
    match clean_rating (some r) with
    | some q => q == 1 || q == 2 || q == 3 || q == 4 || q == 5
    | none => false

/-- Is a whole raw row clean: exactly the four cells, all present,
Title non-empty, Price and Rating clean, Availability already
stripped? -/
def cleanRowB : List Cell → Bool
  | [some t, some p, some r, some a] =>
    !(t == "") && cleanPriceStr p && cleanRatingStr r && pyStrip a == a
  | _ => false

/-- Is a raw table already canonical: the headers are literally the four
canonical fields, in order, and every row is clean? -/
def isCanonicalRaw (t : RawTable) : Bool :=
  t.headers == ["Title", "Price", "Rating", "Availability"] && t.rows.all cleanRowB

/-- The value a clean row denotes: Title and Availability verbatim, the
parsed Price and Rating numbers. -/
def denoteCleanRow : List Cell → CanonRow
  | [some t, some p, some r, some a] =>
    ⟨t, (toNumeric p).getD 0, (clean_rating (some r)).getD 0, a⟩
  | _ => ⟨"", 0, 0, ""⟩

/-- The row invariant claimed for the canonical frame (C1 as stated):
non-empty Title, non-negative Price, Rating in `{1,2,3,4,5}`, non-empty
Availability. -/
def claimedRowInvariant (r : CanonRow) : Prop :=
  r.title ≠ "" ∧ 0 ≤ r.price ∧
    (r.rating = 1 ∨ r.rating = 2 ∨ r.rating = 3 ∨ r.rating = 4 ∨ r.rating = 5) ∧
    r.avail ≠ ""

instance (r : CanonRow) : Decidable (claimedRowInvariant r) := by
  unfold claimedRowInvariant
  infer_instance

/-! ## Basic lemmas about the numeric parser -/

theorem parseDec_nonneg {l : List Char} {q : ℚ} (h : parseDec l = some q) :
    0 ≤ q := by
  unfold parseDec at h
  rcases hs : splitDot l with _ | ⟨a, _ | ⟨b, _ | _⟩⟩ <;> rw [hs] at h
  · simp at h
  · replace h :
        (if (!a.isEmpty && allDigits a) = true then
          some ((digitsVal a : ℚ)) else none) = some q := h
    by_cases hb : (!a.isEmpty && allDigits a) = true
    · rw [if_pos hb] at h
      cases h
      positivity
    · rw [if_neg hb] at h
      simp at h
  · replace h :
        (if ((!a.isEmpty || !b.isEmpty) && allDigits a && allDigits b) = true then
          some ((digitsVal a : ℚ) + (digitsVal b : ℚ) / (10 : ℚ) ^ b.length)
        else none) = some q := h
    by_cases hb : ((!a.isEmpty || !b.isEmpty) && allDigits a && allDigits b) = true
    · rw [if_pos hb] at h
      cases h
      positivity
    · rw [if_neg hb] at h
      simp at h
  · simp at h

theorem toList_mk (l : List Char) : (String.mk l).toList = l := rfl

theorem toNumeric_nonneg_of_no_sign {s : String} {q : ℚ}
    (hc : ∀ c ∈ s.toList, c ≠ '-' ∧ c ≠ '+')
    (h : toNumeric s = some q) : 0 ≤ q := by
  unfold toNumeric at h
  rcases hl : s.toList with _ | ⟨c, t⟩ <;> rw [hl] at h
  · simp [toNumericL] at h
  · obtain ⟨h1, h2⟩ := hc c (by rw [hl]; exact List.mem_cons_self c t)
    simp only [toNumericL] at h
    rw [if_neg h1, if_neg h2] at h
    exact parseDec_nonneg h

theorem clean_rating_nat {c : Cell} {q : ℚ} (h : clean_rating c = some q) :
    ∃ n : ℕ, q = (n : ℚ) := by
  rcases c with _ | x
  · simp [clean_rating] at h
  · replace h :
        (if (!(pyStrip x).toList.isEmpty && allDigits (pyStrip x).toList) = true then
          some ((digitsVal (pyStrip x).toList : ℚ))
        else
          match wordToNum (pyLower (pyStrip x)) with
          | some n => some ((n : ℕ) : ℚ)
          | none => none) = some q := h
    by_cases hd : (!(pyStrip x).toList.isEmpty && allDigits (pyStrip x).toList) = true
    · rw [if_pos hd] at h
      cases h
      exact ⟨_, rfl⟩
    · rw [if_neg hd] at h
      rcases hw : wordToNum (pyLower (pyStrip x)) with _ | n <;> rw [hw] at h
      · simp at h
      · cases h
        exact ⟨n, rfl⟩

theorem normalizeRow_rating {tc pc rc ac : Cell} {r : CanonRow}
    (h : normalizeRow tc pc rc ac = some r) : ∃ n : ℕ, r.rating = (n : ℚ) := by
  unfold normalizeRow at h
  rcases tc with _ | t <;>
    rcases hp : cleanPriceCell pc with _ | p <;> rw [hp] at h <;>
    rcases hr : clean_rating rc with _ | q <;> rw [hr] at h <;>
    try exact Option.noConfusion h
  injection h with h
  subst h
  obtain ⟨n, hn⟩ := clean_rating_nat hr
  exact ⟨n, hn⟩

theorem normalizeRow_ok {tc pc rc ac : Cell} {r : CanonRow}
    (h : normalizeRow tc pc rc ac = some r) :
    tc = some r.title ∧ cleanPriceCell pc = some r.price ∧
      clean_rating rc = some r.rating ∧ r.avail = cleanAvail ac := by
  unfold normalizeRow at h
  rcases tc with _ | t <;>
    rcases hp : cleanPriceCell pc with _ | p <;> rw [hp] at h <;>
    rcases hr : clean_rating rc with _ | q <;> rw [hr] at h <;>
    try exact Option.noConfusion h
  injection h with h
  subst h
  exact ⟨rfl, rfl, rfl, rfl⟩

/-! ## Dict lemmas (the `column_mapping` association list) -/

theorem dictKeys_cons (k v : String) (d : ColDict) :
    dictKeys ((k, v) :: d) = k :: dictKeys d := rfl

theorem dictSet_fresh {d : ColDict} {k : String} (v : String) (h : k ∉ dictKeys d) :
    dictSet d k v = d ++ [(k, v)] := by
  induction d with
  | nil => rfl
  | cons p d ih =>
    obtain ⟨k', v'⟩ := p
    rw [dictKeys_cons] at h
    simp only [List.mem_cons, not_or] at h
    simp only [dictSet, if_neg (Ne.symm h.1), ih h.2, List.cons_append]

theorem dictKeys_set_subset (d : ColDict) (k v : String) :
    ∀ c, c ∈ dictKeys (dictSet d k v) → c ∈ dictKeys d ∨ c = k := by
  induction d with
  | nil =>
    intro c hc
    simp [dictSet, dictKeys] at hc
    exact Or.inr hc
  | cons p d ih =>
    obtain ⟨k', v'⟩ := p
    intro c hc
    by_cases he : k' = k
    · rw [show dictSet ((k', v') :: d) k v = (k, v) :: d from by
        simp [dictSet, if_pos he]] at hc
      rw [dictKeys_cons] at hc
      rcases List.mem_cons.mp hc with h | h
      · exact Or.inr h
      · exact Or.inl (by rw [dictKeys_cons]; exact List.mem_cons_of_mem _ h)
    · rw [show dictSet ((k', v') :: d) k v = (k', v') :: dictSet d k v from by
        simp [dictSet, if_neg he]] at hc
      rw [dictKeys_cons] at hc
      rcases List.mem_cons.mp hc with h | h
      · exact Or.inl (by rw [dictKeys_cons]; exact h ▸ List.mem_cons_self _ _)
      · rcases ih c h with h' | h'
        · exact Or.inl (by rw [dictKeys_cons]; exact List.mem_cons_of_mem _ h')
        · exact Or.inr h'

theorem dictGet_eq_none {d : ColDict} {k : String} (h : k ∉ dictKeys d) :
    dictGet d k = none := by
  induction d with
  | nil => rfl
  | cons p d ih =>
    obtain ⟨k', v'⟩ := p
    rw [dictKeys_cons] at h
    simp only [List.mem_cons, not_or] at h
    unfold dictGet
    rw [List.find?_cons_of_neg _ (by simpa using Ne.symm h.1)]
    exact ih h.2

theorem dictGet_mem {d : ColDict} {k v : String} (h : dictGet d k = some v) :
    (k, v) ∈ d := by
  unfold dictGet at h
  rcases hf : d.find? (fun p => p.1 == k) with _ | p <;> rw [hf] at h
  · exact Option.noConfusion h
  · obtain ⟨k', v'⟩ := p
    have hm := List.mem_of_find?_eq_some hf
    have hp := List.find?_some hf
    replace hp : (k' == k) = true := hp
    injection h with h
    cases eq_of_beq hp
    cases h
    exact hm

theorem dictGet_of_mem {d : ColDict} (hnd : (dictKeys d).Nodup) {k v : String}
    (h : (k, v) ∈ d) : dictGet d k = some v := by
  induction d with
  | nil => exact absurd h (List.not_mem_nil _)
  | cons p d ih =>
    obtain ⟨k', v'⟩ := p
    rw [dictKeys_cons] at hnd
    have hnd' := List.nodup_cons.mp hnd
    rcases List.mem_cons.mp h with he | hm
    · injection he with he1 he2
      cases he1
      cases he2
      unfold dictGet
      rw [List.find?_cons_of_pos _ (by simp)]
      rfl
    · have hk : k ≠ k' := by
        rintro rfl
        exact hnd'.1 (List.mem_map_of_mem Prod.fst hm)
      unfold dictGet
      rw [List.find?_cons_of_neg _ (by simpa using Ne.symm hk)]
      exact ih hnd'.2 hm

theorem dictGet_set_ne {d : ColDict} {k k' : String} (v : String) (hne : k' ≠ k) :
    dictGet (dictSet d k v) k' = dictGet d k' := by
  induction d with
  | nil =>
    unfold dictSet dictGet
    rw [List.find?_cons_of_neg _ (by simpa using Ne.symm hne)]
  | cons p d ih =>
    obtain ⟨k'', v''⟩ := p
    by_cases he : k'' = k
    · rw [show dictSet ((k'', v'') :: d) k v = (k, v) :: d from by
        simp [dictSet, if_pos he]]
      unfold dictGet
      rw [List.find?_cons_of_neg _ (by simpa using Ne.symm hne),
        List.find?_cons_of_neg _ (by simp [he]; exact fun h => hne (h ▸ rfl))]
    · rw [show dictSet ((k'', v'') :: d) k v = (k'', v'') :: dictSet d k v from by
        simp [dictSet, if_neg he]]
      unfold dictGet
      by_cases hk : (k'' == k') = true
      · rw [List.find?_cons_of_pos _ (by simpa using hk),
          List.find?_cons_of_pos _ (by simpa using hk)]
      · rw [List.find?_cons_of_neg _ (by simpa using hk),
          List.find?_cons_of_neg _ (by simpa using hk)]
        exact ih

theorem dictHasVal_iff {d : ColDict} {v : String} :
    dictHasVal d v = true ↔ ∃ k, (k, v) ∈ d := by
  unfold dictHasVal
  rw [List.any_eq_true]
  constructor
  · rintro ⟨⟨k, v'⟩, hm, hp⟩
    simp only [beq_iff_eq] at hp
    cases hp
    exact ⟨k, hm⟩
  · rintro ⟨k, hm⟩
    exact ⟨(k, v), hm, by simp⟩

theorem dictHasVal_append (d : ColDict) (p : String × String) (v : String) :
    dictHasVal (d ++ [p]) v = (dictHasVal d v || (p.2 == v)) := by
  unfold dictHasVal
  rw [List.any_append]
  simp

theorem dictHasVal_eq_isSome (d : ColDict) (v : String) :
    dictHasVal d v = (dictFieldSource d v).isSome := by
  unfold dictHasVal dictFieldSource
  induction d with
  | nil => rfl
  | cons p d ih =>
    by_cases hp : (p.2 == v) = true
    · rw [@List.find?_cons_of_pos _ (fun q => q.2 == v) p d hp]
      simp [hp]
    · rw [@List.find?_cons_of_neg _ (fun q => q.2 == v) p d hp]
      simp only [List.any_cons, hp, Bool.false_or]
      exact ih

/-! ## Relating the code's mapping loop to the spec-side resolvers -/

theorem find?_congr_on {P Q : String → Bool} :
    ∀ l : List String, (∀ x ∈ l, P x = Q x) → l.find? P = l.find? Q := by
  intro l
  induction l with
  | nil => intro _; rfl
  | cons a t ih =>
    intro h
    rw [List.find?_cons, List.find?_cons, h a (List.mem_cons_self _ _)]
    cases Q a
    · exact ih (fun x hx => h x (List.mem_cons_of_mem _ hx))
    · rfl

theorem FieldMap.eta_get (m : FieldMap) :
    (⟨FieldMap.get m "Title", FieldMap.get m "Price", FieldMap.get m "Rating",
      FieldMap.get m "Availability"⟩ : FieldMap) = m := by
  cases m
  rfl

theorem FieldMap.get_set_self (m : FieldMap) {f : String} (hf : f ∈ requiredCols)
    (c : String) : FieldMap.get (FieldMap.set m f c) f = some c := by
  fin_cases hf <;> rfl

theorem FieldMap.get_set_ne (m : FieldMap) {f g : String} (hf : f ∈ requiredCols)
    (hg : g ∈ requiredCols) (hne : f ≠ g) (c : String) :
    FieldMap.get (FieldMap.set m g c) f = FieldMap.get m f := by
  fin_cases hf <;> fin_cases hg <;> first
    | rfl
    | exact absurd rfl hne

/-- The `if/elif` chain of the mapping loop selects exactly the first
canonical field, in precedence order, whose keyword matches and whose
value is not yet in the dict. -/
theorem mapStep_find (d : ColDict) (col : String) :
    mapStep d col =
      match requiredCols.find?
          (fun f => fieldKeyMatch f (pyLower col) && !dictHasVal d f) with
      | some f => dictSet d col f
      | none => d := by
  by_cases h1 : (strHasSub (pyLower col) "title" && !dictHasVal d "Title") = true <;>
    by_cases h2 : (strHasSub (pyLower col) "price" && !dictHasVal d "Price") = true <;>
      by_cases h3 : (strHasSub (pyLower col) "rating" && !dictHasVal d "Rating") = true <;>
        by_cases h4 :
            ((strHasSub (pyLower col) "availability" || strHasSub (pyLower col) "avail") &&
              !dictHasVal d "Availability") = true <;>
          simp [mapStep, requiredCols, fieldKeyMatch, List.find?_cons, h1, h2, h3, h4]

theorem mapStep_cases (d : ColDict) (col : String) (hfresh : col ∉ dictKeys d) :
    mapStep d col = d ∨ ∃ f, mapStep d col = d ++ [(col, f)] := by
  rw [mapStep_find]
  rcases requiredCols.find? (fun f => fieldKeyMatch f (pyLower col) && !dictHasVal d f) with
    _ | f
  · exact Or.inl rfl
  · refine Or.inr ⟨f, ?_⟩
    show dictSet d col f = d ++ [(col, f)]
    rw [dictSet_fresh _ hfresh]

theorem keys_mapStep (d : ColDict) (col : String) :
    ∀ c, c ∈ dictKeys (mapStep d col) → c ∈ dictKeys d ∨ c = col := by
  rw [mapStep_find]
  rcases requiredCols.find? (fun f => fieldKeyMatch f (pyLower col) && !dictHasVal d f) with
    _ | f
  · exact fun c hc => Or.inl hc
  · exact dictKeys_set_subset d col f

theorem fresh_tail {d : ColDict} {col : String} {cols : List String}
    (hnd : (col :: cols).Nodup) (hfresh : ∀ c ∈ col :: cols, c ∉ dictKeys d) :
    ∀ c ∈ cols, c ∉ dictKeys (mapStep d col) := by
  intro c hc hmem
  rcases keys_mapStep d col c hmem with h | h
  · exact hfresh c (List.mem_cons_of_mem _ hc) h
  · exact (List.nodup_cons.mp hnd).1 (h ▸ hc)

/-- One loop iteration: the dict's per-field source view and the
spec-side fall-through `FieldMap` stay in lockstep (for a column whose
name is not already a dict key). -/
theorem step_rel {d : ColDict} {m : FieldMap} {col : String}
    (hfresh : col ∉ dictKeys d)
    (hrel : ∀ f ∈ requiredCols, dictFieldSource d f = FieldMap.get m f) :
    ∀ f ∈ requiredCols,
      dictFieldSource (mapStep d col) f = FieldMap.get (fallStep m col) f := by
  have hiff : ∀ f ∈ requiredCols, (!dictHasVal d f) = (FieldMap.get m f).isNone := by
    intro f hf
    rw [dictHasVal_eq_isSome, hrel f hf]
    cases FieldMap.get m f <;> rfl
  have hfind :
      requiredCols.find? (fun f => fieldKeyMatch f (pyLower col) && !dictHasVal d f) =
        requiredCols.find?
          (fun f => fieldKeyMatch f (pyLower col) && (FieldMap.get m f).isNone) :=
    find?_congr_on _ (fun f hf => by rw [hiff f hf])
  rw [mapStep_find, hfind]
  unfold fallStep
  rcases hf0 : requiredCols.find?
      (fun f => fieldKeyMatch f (pyLower col) && (FieldMap.get m f).isNone) with _ | f0
  · exact hrel
  · have hf0mem := List.mem_of_find?_eq_some hf0
    have hf0p := List.find?_some hf0
    replace hf0p :
        (fieldKeyMatch f0 (pyLower col) && (FieldMap.get m f0).isNone) = true := hf0p
    show ∀ f ∈ requiredCols,
      dictFieldSource (dictSet d col f0) f = FieldMap.get (FieldMap.set m f0 col) f
    rw [dictSet_fresh _ hfresh]
    intro f hfm
    rcases eq_or_ne f f0 with rfl | hne
    · have hnone : dictFieldSource d f = none := by
        rw [hrel f hfm]
        rcases hg : FieldMap.get m f with _ | v
        · rfl
        · rw [hg] at hf0p
          simp at hf0p
      unfold dictFieldSource at hnone ⊢
      rw [List.find?_append, Option.map_eq_none'.mp hnone]
      simp [FieldMap.get_set_self m hfm]
    · unfold dictFieldSource
      rw [List.find?_append]
      rw [show List.find? (fun p => p.2 == f) [(col, f0)] = none from by
        rw [@List.find?_cons_of_neg _ (fun p => p.2 == f) (col, f0) []
          (by simpa using Ne.symm hne)]
        rfl]
      rw [Option.or_none]
      rw [show (List.find? (fun p => p.2 == f) d).map Prod.fst = dictFieldSource d f from rfl]
      rw [hrel f hfm, FieldMap.get_set_ne m hfm hf0mem hne]

/-- The full loop: for duplicate-free column names, the code's dict and
the spec-side fall-through resolver agree field by field. -/
theorem foldl_rel :
    ∀ (cols : List String) (d : ColDict) (m : FieldMap),
      cols.Nodup → (∀ c ∈ cols, c ∉ dictKeys d) →
      (∀ f ∈ requiredCols, dictFieldSource d f = FieldMap.get m f) →
      ∀ f ∈ requiredCols,
        dictFieldSource (cols.foldl mapStep d) f =
          FieldMap.get (cols.foldl fallStep m) f := by
  intro cols
  induction cols with
  | nil =>
    intro d m _ _ hrel
    simpa using hrel
  | cons col cols ih =>
    intro d m hnd hfresh hrel
    simp only [List.foldl_cons]
    exact ih (mapStep d col) (fallStep m col) (List.nodup_cons.mp hnd).2
      (fresh_tail hnd hfresh)
      (step_rel (hfresh col (List.mem_cons_self _ _)) hrel)

theorem foldl_keys_subset :
    ∀ (cols : List String) (d : ColDict) (c : String),
      c ∈ dictKeys (cols.foldl mapStep d) → c ∈ dictKeys d ∨ c ∈ cols := by
  intro cols
  induction cols with
  | nil =>
    intro d c h
    exact Or.inl h
  | cons col cols ih =>
    intro d c h
    simp only [List.foldl_cons] at h
    rcases ih (mapStep d col) c h with h' | h'
    · rcases keys_mapStep d col c h' with h'' | h''
      · exact Or.inl h''
      · exact Or.inr (h'' ▸ List.mem_cons_self _ _)
    · exact Or.inr (List.mem_cons_of_mem _ h')

theorem foldl_keys_nodup :
    ∀ (cols : List String) (d : ColDict),
      cols.Nodup → (∀ c ∈ cols, c ∉ dictKeys d) → (dictKeys d).Nodup →
      (dictKeys (cols.foldl mapStep d)).Nodup := by
  intro cols
  induction cols with
  | nil =>
    intro d _ _ h
    exact h
  | cons col cols ih =>
    intro d hnd hfresh hdk
    simp only [List.foldl_cons]
    refine ih (mapStep d col) (List.nodup_cons.mp hnd).2 (fresh_tail hnd hfresh) ?_
    rcases mapStep_cases d col (hfresh col (List.mem_cons_self _ _)) with he | ⟨f, he⟩ <;>
      rw [he]
    · exact hdk
    · unfold dictKeys
      rw [List.map_append]
      refine List.Nodup.append hdk (by simp) ?_
      intro x hx hx'
      simp at hx'
      exact hfresh col (List.mem_cons_self _ _) (hx' ▸ hx)

theorem foldl_hasVal_mono :
    ∀ (cols : List String) (d : ColDict) (v : String),
      cols.Nodup → (∀ c ∈ cols, c ∉ dictKeys d) →
      dictHasVal d v = true → dictHasVal (cols.foldl mapStep d) v = true := by
  intro cols
  induction cols with
  | nil =>
    intro d v _ _ h
    exact h
  | cons col cols ih =>
    intro d v hnd hfresh hv
    simp only [List.foldl_cons]
    refine ih (mapStep d col) v (List.nodup_cons.mp hnd).2 (fresh_tail hnd hfresh) ?_
    rcases mapStep_cases d col (hfresh col (List.mem_cons_self _ _)) with he | ⟨f, he⟩ <;>
      rw [he]
    · exact hv
    · rw [dictHasVal_append]
      simp [hv]

theorem foldl_get_stable :
    ∀ (cols : List String) (d : ColDict) (k : String),
      (∀ c ∈ cols, c ≠ k) → dictGet (cols.foldl mapStep d) k = dictGet d k := by
  intro cols
  induction cols with
  | nil =>
    intro d k _
    rfl
  | cons col cols ih =>
    intro d k h
    simp only [List.foldl_cons]
    rw [ih (mapStep d col) k (fun c hc => h c (List.mem_cons_of_mem _ hc))]
    rw [mapStep_find]
    rcases requiredCols.find?
        (fun f => fieldKeyMatch f (pyLower col) && !dictHasVal d f) with _ | f
    · rfl
    · exact dictGet_set_ne f (Ne.symm (h col (List.mem_cons_self _ _)))

/-! ## Clean rows pass through the Normalizer unchanged -/

theorem filterMap_eq_map_of {α β : Type} {g : α → Option β} {h : α → β} :
    ∀ l : List α, (∀ x ∈ l, g x = some (h x)) → l.filterMap g = l.map h := by
  intro l
  induction l with
  | nil => intro _; rfl
  | cons a t ih =>
    intro hp
    rw [List.filterMap_cons, hp a (List.mem_cons_self _ _), List.map_cons,
      ih (fun x hx => hp x (List.mem_cons_of_mem _ hx))]

theorem normalizeRow_of_clean {row : List Cell} (h : cleanRowB row = true) :
    normalizeRow (row.getD 0 none) (row.getD 1 none) (row.getD 2 none)
        (row.getD 3 none) = some (denoteCleanRow row) := by
  rcases row with _ | ⟨c0, _ | ⟨c1, _ | ⟨c2, _ | ⟨c3, _ | ⟨c4, rest⟩⟩⟩⟩⟩ <;>
    try simp [cleanRowB] at h
  rcases c0 with _ | t <;> rcases c1 with _ | p <;> rcases c2 with _ | r <;>
    rcases c3 with _ | a <;> try simp at h
  obtain ⟨⟨⟨ht, hp⟩, hr⟩, ha⟩ := h
  simp only [cleanPriceStr, Bool.and_eq_true, beq_iff_eq] at hp
  obtain ⟨⟨⟨hsc, hrn⟩, hst⟩, htn0⟩ := hp
  rcases htn : toNumeric p with _ | q
  · rw [htn] at htn0
    exact absurd htn0 (by simp)
  simp only [cleanRatingStr, Bool.and_eq_true, beq_iff_eq] at hr
  obtain ⟨hstr, hcrm⟩ := hr
  rcases hcr : clean_rating (some r) with _ | v
  · rw [hcr] at hcrm
    exact absurd hcrm (by simp)
  have hcp : cleanPriceCell (some p) = some q := by
    show toNumeric (pyStrip (removeNA (stripCurrency p))) = some q
    rw [hsc, hrn, hst, htn]
  have hav : cleanAvail (some a) = a := by
    show pyStrip a = a
    exact ha
  show normalizeRow (some t) (some p) (some r) (some a) =
    some (denoteCleanRow [some t, some p, some r, some a])
  unfold normalizeRow
  rw [hcp, hcr]
  show some (⟨t, q, v, cleanAvail (some a)⟩ : CanonRow) =
    some (⟨t, (toNumeric p).getD 0, (clean_rating (some r)).getD 0, a⟩ : CanonRow)
  rw [htn, hcr, hav]
  rfl

/-! ## Claim theorems -/

/-- Claim C1, counterexample.  The claimed `CanonicalFrame` row invariant
(non-empty Title, `Price ≥ 0`, `Rating ∈ {1..5}`, non-empty
Availability) does NOT hold for every frame `load_data` accepts.  The
raw row `Title="A", Price="-5", Rating="7", Availability=" "` is
retained — `pd.to_numeric` parses the negative price, `clean_rating`
parses any digit string, and the whitespace Availability strips to the
empty string — violating three of the four constraints at once; and the
row `Title="", Price="1", Rating="2", Availability="ok"` is retained
with an empty Title, because the Normalizer never validates Title
content (the spec's RawTable is an arbitrary tabular input, and
`dropna` only tests for a missing cell). -/
theorem C1_counterexample :
    load_data ⟨["Title", "Price", "Rating", "Availability"],
        [[some "A", some "-5", some "7", some " "],
         [some "", some "1", some "2", some "ok"]]⟩ =
      .ok [⟨"A", -5, 7, ""⟩, ⟨"", 1, 2, "ok"⟩] ∧
    ¬ claimedRowInvariant ⟨"A", -5, 7, ""⟩ ∧
    ¬ claimedRowInvariant ⟨"", 1, 2, "ok"⟩ :=
  ⟨by rfl, by decide, by decide⟩

/-- Claim C1, amended.  Every row of a frame produced by `load_data`
satisfies the invariant the code actually establishes: it comes from an
input row whose Title cell was present and is returned verbatim (its
content — possibly the empty string — is not validated), whose Price
cell parsed to the row's Price (possibly negative), whose Rating cell
parsed to the row's Rating, a nonnegative integer-valued rational (any
digit literal, or a word in one..five), and whose Availability cell
cleans — stringify then strip — to the row's Availability, which may be
empty and is the literal `"nan"` when the cell was missing; invalid
rows are excluded rather than defaulted, so the frame is never longer
than the raw table. -/
theorem C1_amended {t : RawTable} {f : List CanonRow} (h : load_data t = .ok f) :
    f.length ≤ t.rows.length ∧
    ∀ r ∈ f, ∃ row ∈ t.rows,
      cellAt t row "Title" = some r.title ∧
      cleanPriceCell (cellAt t row "Price") = some r.price ∧
      clean_rating (cellAt t row "Rating") = some r.rating ∧
      r.avail = cleanAvail (cellAt t row "Availability") ∧
      (∃ n : ℕ, r.rating = (n : ℚ)) ∧
      (cellAt t row "Availability" = none → r.avail = "nan") := by
  simp only [load_data] at h
  split at h
  · injection h with h
    subst h
    refine ⟨List.length_filterMap_le _ _, ?_⟩
    intro r hr
    obtain ⟨row, hrow, hnr⟩ := List.mem_filterMap.mp hr
    obtain ⟨h1, h2, h3, h4⟩ := normalizeRow_ok hnr
    refine ⟨row, hrow, h1, h2, h3, h4, clean_rating_nat h3, ?_⟩
    intro hnone
    rw [h4]
    show cleanAvail (cellAt t row "Availability") = "nan"
    rw [hnone]
    rfl
  · exact Except.noConfusion h

/-- Witness for `C1_amended` at a concrete accepted table. -/
theorem C1_amended_witness :
    load_data ⟨["Title", "Price", "Rating", "Availability"],
        [[some "B", some "£5", some "4", some "In stock"]]⟩ =
      .ok [⟨"B", 5, 4, "In stock"⟩] ∧
    (([⟨"B", 5, 4, "In stock"⟩] : List CanonRow).length ≤
        (⟨["Title", "Price", "Rating", "Availability"],
          [[some "B", some "£5", some "4", some "In stock"]]⟩ : RawTable).rows.length ∧
      ∀ r ∈ ([⟨"B", 5, 4, "In stock"⟩] : List CanonRow),
        ∃ row ∈ (⟨["Title", "Price", "Rating", "Availability"],
            [[some "B", some "£5", some "4", some "In stock"]]⟩ : RawTable).rows,
          cellAt ⟨["Title", "Price", "Rating", "Availability"],
              [[some "B", some "£5", some "4", some "In stock"]]⟩ row "Title" =
            some r.title ∧
          cleanPriceCell (cellAt ⟨["Title", "Price", "Rating", "Availability"],
              [[some "B", some "£5", some "4", some "In stock"]]⟩ row "Price") =
            some r.price ∧
          clean_rating (cellAt ⟨["Title", "Price", "Rating", "Availability"],
              [[some "B", some "£5", some "4", some "In stock"]]⟩ row "Rating") =
            some r.rating ∧
          r.avail = cleanAvail (cellAt ⟨["Title", "Price", "Rating", "Availability"],
              [[some "B", some "£5", some "4", some "In stock"]]⟩ row "Availability") ∧
          (∃ n : ℕ, r.rating = (n : ℚ)) ∧
          (cellAt ⟨["Title", "Price", "Rating", "Availability"],
              [[some "B", some "£5", some "4", some "In stock"]]⟩ row "Availability" =
              none → r.avail = "nan")) :=
  ⟨by rfl, C1_amended (by rfl)⟩

/-- Claim C2, code evaluation at the failing input.  The claim (and the
spec) say a row whose Availability cell is null is dropped; the code's
own `dropna(subset=[..., 'Availability'])` shows the same intent, but
`astype(str)` has already turned the null into the literal string
`"nan"`, so the clause is dead and the row is retained. -/
theorem C2_code_eval :
    load_data ⟨["Title", "Price", "Rating", "Availability"],
        [[some "A", some "5", some "3", none]]⟩ =
      .ok [⟨"A", 5, 3, "nan"⟩] := by
  rfl

/-- Claim C3.  Normalizing an already-canonical raw table — headers
literally the four canonical fields and every cell clean (present,
already stripped, Price/Rating parsing to canonical values) — is a
no-op: no row is dropped, the row order is kept (reindexing from 0 is
implicit in the list model), Title and Availability cells are returned
verbatim and Price/Rating carry exactly the numeric value the clean cell
denotes. -/
theorem C3_canonical_noop (t : RawTable) (h : isCanonicalRaw t = true) :
    load_data t = .ok (t.rows.map denoteCleanRow) := by
  obtain ⟨headers, rows⟩ := t
  simp only [isCanonicalRaw, Bool.and_eq_true] at h
  obtain ⟨hh, hrows⟩ := h
  have hh' : headers = ["Title", "Price", "Rating", "Availability"] := eq_of_beq hh
  subst hh'
  have hstep : load_data ⟨["Title", "Price", "Rating", "Availability"], rows⟩ =
      .ok (rows.filterMap (fun row =>
        normalizeRow (row.getD 0 none) (row.getD 1 none)
          (row.getD 2 none) (row.getD 3 none))) := rfl
  rw [hstep]
  show Except.ok _ = Except.ok _
  rw [filterMap_eq_map_of rows
    (fun row hrow => normalizeRow_of_clean (List.all_eq_true.mp hrows row hrow))]

/-- Witness for `C3_canonical_noop` at a concrete canonical table. -/
theorem C3_canonical_noop_witness :
    isCanonicalRaw ⟨["Title", "Price", "Rating", "Availability"],
      [[some "A", some "10", some "3", some "In stock"]]⟩ = true ∧
    load_data ⟨["Title", "Price", "Rating", "Availability"],
        [[some "A", some "10", some "3", some "In stock"]]⟩ =
      .ok (([[some "A", some "10", some "3", some "In stock"]] : List (List Cell)).map
        denoteCleanRow) :=
  ⟨by decide, C3_canonical_noop _ (by decide)⟩

/-- Claim C5.  `clean_rating` parses a (stripped) pure digit string
directly, maps a case-insensitive number word in one..five to `1..5`,
and marks every other cell invalid; in particular `"3"`, `"Three"`,
`"three"`, `"Zero"` yield `3, 3, 3, invalid`. -/
theorem C5_clean_rating_spec :
    clean_rating (some "3") = some 3 ∧
    clean_rating (some "Three") = some 3 ∧
    clean_rating (some "three") = some 3 ∧
    clean_rating (some "Zero") = none ∧
    (∀ s : String,
      (!(pyStrip s).toList.isEmpty && allDigits (pyStrip s).toList) = true →
      clean_rating (some s) = some (digitsVal (pyStrip s).toList : ℚ)) ∧
    (∀ (s : String) (n : ℕ),
      (!(pyStrip s).toList.isEmpty && allDigits (pyStrip s).toList) = false →
      wordToNum (pyLower (pyStrip s)) = some n →
      clean_rating (some s) = some (n : ℚ)) ∧
    (∀ s : String,
      (!(pyStrip s).toList.isEmpty && allDigits (pyStrip s).toList) = false →
      wordToNum (pyLower (pyStrip s)) = none →
      clean_rating (some s) = none) := by
  refine ⟨by decide, by decide, by decide, by decide, ?_, ?_, ?_⟩
  · intro s h
    show (if (!(pyStrip s).toList.isEmpty && allDigits (pyStrip s).toList) = true then
        some ((digitsVal (pyStrip s).toList : ℚ))
      else
        match wordToNum (pyLower (pyStrip s)) with
        | some n => some ((n : ℕ) : ℚ)
        | none => none) = _
    rw [if_pos h]
  · intro s n h hw
    show (if (!(pyStrip s).toList.isEmpty && allDigits (pyStrip s).toList) = true then
        some ((digitsVal (pyStrip s).toList : ℚ))
      else
        match wordToNum (pyLower (pyStrip s)) with
        | some n => some ((n : ℕ) : ℚ)
        | none => none) = _
    rw [if_neg (by rw [Bool.not_eq_true]; exact h), hw]
  · intro s h hw
    show (if (!(pyStrip s).toList.isEmpty && allDigits (pyStrip s).toList) = true then
        some ((digitsVal (pyStrip s).toList : ℚ))
      else
        match wordToNum (pyLower (pyStrip s)) with
        | some n => some ((n : ℕ) : ℚ)
        | none => none) = _
    rw [if_neg (by rw [Bool.not_eq_true]; exact h), hw]

/-- Witness for the hypothesis-bearing clauses of
`C5_clean_rating_spec`, applied at the concrete cell `"Four"`. -/
theorem C5_clean_rating_spec_witness :
    ((!(pyStrip "Four").toList.isEmpty && allDigits (pyStrip "Four").toList) = false ∧
      wordToNum (pyLower (pyStrip "Four")) = some 4) ∧
    clean_rating (some "Four") = some ((4 : ℕ) : ℚ) :=
  ⟨⟨by decide, by decide⟩,
    C5_clean_rating_spec.2.2.2.2.2.1 "Four" 4 (by decide) (by decide)⟩

/-- Claim C7.  `calculate_kpis` counts as in stock exactly the rows
whose Availability contains `"in stock"` case-insensitively, and
`availability_rate` is `in_stock / total_books * 100` with an explicit
`0` on the empty frame (the model is a total function into `ℚ`: there is
no division-by-zero error and no `NaN` to produce). -/
theorem C7_availability_rate (df : List CanonRow) :
    (calculate_kpis df).in_stock = df.countP (fun r => containsInStock r.avail) ∧
    (calculate_kpis df).total_books = df.length ∧
    (calculate_kpis df).availability_rate =
      (if df.length = 0 then 0 else
        (df.countP (fun r => containsInStock r.avail) : ℚ) / (df.length : ℚ) * 100) ∧
    (calculate_kpis []).availability_rate = 0 := by
  refine ⟨by simp [calculate_kpis, List.countP_eq_length_filter], rfl, ?_, rfl⟩
  simp only [calculate_kpis]
  rcases Nat.eq_zero_or_pos df.length with h0 | hpos
  · rw [h0]
    simp
  · rw [if_pos hpos, if_neg (by omega), List.countP_eq_length_filter]

/-- Claim C8.  The sidebar filter keeps exactly the rows satisfying the
conjunction of rating membership, inclusive price bounds and
availability membership; on the two-row scenario frame it keeps exactly
the first row, and `calculate_kpis` on that subview yields
`avgPrice = 10, avgRating = 3, totalBooks = 1, inStock = 1,
availabilityRate = 100`. -/
theorem C8_filter_kpis :
    (∀ (df : List CanonRow) (ratings : List ℚ) (lo hi : ℚ)
        (avails : List String) (r : CanonRow),
      r ∈ filterFrame df ratings lo hi avails ↔
        r ∈ df ∧ r.rating ∈ ratings ∧ lo ≤ r.price ∧ r.price ≤ hi ∧
          r.avail ∈ avails) ∧
    filterFrame [⟨"A", 10, 3, "In stock"⟩, ⟨"B", 50, 5, "Out of stock"⟩]
        [3] 0 100 ["In stock", "Out of stock"] = [⟨"A", 10, 3, "In stock"⟩] ∧
    calculate_kpis [⟨"A", 10, 3, "In stock"⟩] =
      ⟨some 10, some 3, 1, 1, some 10, some 10, 100⟩ := by
  refine ⟨?_, by decide, ?_⟩
  · intro df ratings lo hi avails r
    simp [filterFrame, List.mem_filter, List.elem_iff, and_assoc]
  · have hc : containsInStock "In stock" = true := by decide
    simp only [calculate_kpis, List.filter_cons, List.filter_nil, hc, if_true,
      List.length_cons, List.length_nil, List.map_cons, List.map_nil,
      List.sum_cons, List.sum_nil, colMin, colMax, KPISet.mk.injEq]
    norm_num

/-- Claim C9.  The crawler's price parser strips to digits and `'.'`,
parses the remainder as a float, and substitutes `0.0` on parse failure
instead of dropping the item; contrast with the Normalizer, where the
same unparsable cell cleans to `NaN` and the row is dropped. -/
theorem C9_price_fallback :
    (∀ s : String,
      clean_price s =
        (toNumeric (String.mk (priceFilter (pyStrip s).toList))).getD 0) ∧
    clean_price "£12" = 12 ∧
    clean_price "" = 0 ∧
    clean_price "12.34.56" = 0 ∧
    cleanPriceCell (some "12.34.56") = none := by
  refine ⟨?_, by decide, by decide, by decide, by decide⟩
  intro s
  unfold clean_price
  rcases toNumeric (String.mk (priceFilter (pyStrip s).toList)) with _ | q <;> rfl

/-- Claim C10.  The crawler's price parser is total (a Lean function by
construction, mirroring the `try/except` that catches every parse
error) and always returns a non-negative value: the character filter
removes any minus sign before parsing, and failures fall back to
`0.0`. -/
theorem C10_clean_price_nonneg (s : String) : 0 ≤ clean_price s := by
  have hfilter :
      ∀ c ∈ (String.mk (priceFilter (pyStrip s).toList)).toList,
        c ≠ '-' ∧ c ≠ '+' := by
    intro c hc
    rw [toList_mk] at hc
    have hp := (List.mem_filter.mp hc).2
    refine ⟨?_, ?_⟩ <;> rintro rfl <;> revert hp <;> decide
  unfold clean_price
  rcases h : toNumeric (String.mk (priceFilter (pyStrip s).toList)) with _ | q
  · exact le_refl 0
  · exact toNumeric_nonneg_of_no_sign hfilter h

/-- Witness for `C10_clean_price_nonneg` at a malformed concrete input
with a leading minus sign and two decimal points. -/
theorem C10_clean_price_nonneg_witness : 0 ≤ clean_price "-1.2.3" :=
  C10_clean_price_nonneg "-1.2.3"

/-- Claim C4, counterexample.  Under the claim's strict reading — the
first matching keyword predicate alone decides a column's destination,
and a later column matching an already-assigned field is ignored — the
column `"PriceTitle"` (which matches the Title keyword first, and Title
is already assigned) would be ignored and Price would stay unassigned.
The code instead lets the column fall through the `elif` chain and
assigns it to Price. -/
theorem C4_counterexample :
    codeFieldView ["Title", "PriceTitle", "Rating", "Avail"] ≠
      specStrictResolve ["Title", "PriceTitle", "Rating", "Avail"] ∧
    dictGet (columnMapping ["Title", "PriceTitle", "Rating", "Avail"]) "PriceTitle" =
      some "Price" ∧
    (specStrictResolve ["Title", "PriceTitle", "Rating", "Avail"]).price = none := by
  refine ⟨by decide, by decide, by decide⟩

/-- Claim C6, counterexample.  With the (distinct) raw headers
`Title, Avail, " price rating", Price, "price rating"` the two
`price rating` columns collide after stripping: the name-keyed
`column_mapping` first assigns Price to `"price rating"` and then
OVERWRITES that entry with Rating, so after processing all columns no
source column is assigned to Price — yet `load_data` succeeds, because
the unmapped literal `Price` column keeps the required header present.
The claim says normalization must fail whenever a canonical field ends
with no assigned source column. -/
theorem C6_counterexample :
    dictHasVal
        (columnMapping
          ((["Title", "Avail", " price rating", "Price", "price rating"] : List String).map pyStrip))
        "Price" = false ∧
    codeFieldSource
        ((["Title", "Avail", " price rating", "Price", "price rating"] : List String).map pyStrip)
        "Price" = none ∧
    load_data ⟨["Title", "Avail", " price rating", "Price", "price rating"],
        [[some "T", some "In stock", some "3", some "9", some "4"]]⟩ =
      .ok [⟨"T", 9, 3, "In stock"⟩] := by
  refine ⟨by decide, by decide, by rfl⟩

/-- Claim C4, amended.  For duplicate-free (stripped) column names — the
only kind the CSV reader produces, since it suffixes duplicate headers —
the resolver is first-match-wins with fall-through: a column is assigned
to the first canonical field, in the precedence order Title, Price,
Rating, Availability, whose keyword matches its trimmed lower-cased name
AND which is still unassigned; a column whose earlier matching fields
are taken falls through to its next matching predicate instead of being
ignored, and is ignored only when every field it matches is assigned;
an assigned field is never overwritten. -/
theorem C4_amended (cols : List String) (h : cols.Nodup) :
    codeFieldView cols = specFallThrough cols := by
  have hrel := foldl_rel cols [] ⟨none, none, none, none⟩ h
    (by intro c _ hc; simp [dictKeys] at hc)
    (by intro f hf; fin_cases hf <;> rfl)
  have hT := hrel "Title" (by simp [requiredCols])
  have hP := hrel "Price" (by simp [requiredCols])
  have hR := hrel "Rating" (by simp [requiredCols])
  have hA := hrel "Availability" (by simp [requiredCols])
  show (⟨codeFieldSource cols "Title", codeFieldSource cols "Price",
    codeFieldSource cols "Rating", codeFieldSource cols "Availability"⟩ : FieldMap) = _
  unfold codeFieldSource columnMapping
  rw [hT, hP, hR, hA]
  exact FieldMap.eta_get (specFallThrough cols)

/-- Witness for `C4_amended` on a concrete duplicate-free header list
containing a multi-keyword column. -/
theorem C4_amended_witness :
    (["Book Title", "PriceTitle", "Rating", "Avail"] : List String).Nodup ∧
    codeFieldView ["Book Title", "PriceTitle", "Rating", "Avail"] =
      specFallThrough ["Book Title", "PriceTitle", "Rating", "Avail"] :=
  ⟨by decide, C4_amended _ (by decide)⟩

/-- For duplicate-free column names a canonical name is among the
renamed columns exactly when the final mapping assigns that field a
source column. -/
theorem mem_renamed_iff (cols : List String) (hnd : cols.Nodup) (f : String)
    (hf : f ∈ requiredCols) :
    f ∈ cols.map (renameCol (columnMapping cols)) ↔
      dictHasVal (columnMapping cols) f = true := by
  constructor
  · intro hmem
    obtain ⟨c, hc, hrc⟩ := List.mem_map.mp hmem
    unfold renameCol at hrc
    rcases hg : dictGet (columnMapping cols) c with _ | v
    · rw [hg] at hrc
      simp only [Option.getD_none] at hrc
      cases hrc
      obtain ⟨l₁, l₂, rfl⟩ := List.append_of_mem hc
      have hnd' := List.nodup_append.mp hnd
      have hclfresh : ∀ x ∈ f :: l₂, x ∉ dictKeys (columnMapping l₁) := by
        intro x hx hkx
        rcases foldl_keys_subset l₁ [] x hkx with h0 | h0
        · simp [dictKeys] at h0
        · exact hnd'.2.2 h0 hx
      have hsplit : columnMapping (l₁ ++ f :: l₂) =
          (f :: l₂).foldl mapStep (columnMapping l₁) := by
        unfold columnMapping
        rw [List.foldl_append]
      rcases hfind : requiredCols.find?
          (fun g => fieldKeyMatch g (pyLower f) && !dictHasVal (columnMapping l₁) g) with
        _ | f0
      · -- the step at the column named `f` assigned nothing, so `f` was
        -- already among the dict's values before that column was processed
        have hpred := List.find?_eq_none.mp hfind f hf
        have hkey : fieldKeyMatch f (pyLower f) = true := by
          fin_cases hf <;> decide
        have hval1 : dictHasVal (columnMapping l₁) f = true := by
          rcases hbv : dictHasVal (columnMapping l₁) f
          · exact absurd (by rw [hkey, hbv]; rfl) hpred
          · rfl
        rw [hsplit]
        exact foldl_hasVal_mono (f :: l₂) (columnMapping l₁) f hnd'.2.1 hclfresh hval1
      · -- the step created the entry `(f, f0)`, which later steps cannot
        -- remove — contradicting `dictGet … f = none`
        exfalso
        have hcfresh : f ∉ dictKeys (columnMapping l₁) :=
          hclfresh f (List.mem_cons_self _ _)
        have hD : columnMapping (l₁ ++ f :: l₂) =
            l₂.foldl mapStep (columnMapping l₁ ++ [(f, f0)]) := by
          rw [hsplit]
          simp only [List.foldl_cons]
          rw [mapStep_find, hfind]
          show l₂.foldl mapStep (dictSet (columnMapping l₁) f f0) = _
          rw [dictSet_fresh _ hcfresh]
        have hstable :
            dictGet (l₂.foldl mapStep (columnMapping l₁ ++ [(f, f0)])) f =
              dictGet (columnMapping l₁ ++ [(f, f0)]) f :=
          foldl_get_stable l₂ _ f
            (fun x hx hxe => (List.nodup_cons.mp hnd'.2.1).1 (hxe ▸ hx))
        have hgc : dictGet (columnMapping l₁ ++ [(f, f0)]) f = some f0 := by
          unfold dictGet
          rw [List.find?_append,
            Option.map_eq_none'.mp (dictGet_eq_none hcfresh),
            @List.find?_cons_of_pos _ (fun p => p.1 == f) (f, f0) [] (by simp)]
          rfl
        rw [hD, hstable, hgc] at hg
        exact Option.noConfusion hg
    · rw [hg] at hrc
      simp only [Option.getD_some] at hrc
      cases hrc
      exact dictHasVal_iff.mpr ⟨c, dictGet_mem hg⟩
  · intro hval
    obtain ⟨k, hk⟩ := dictHasVal_iff.mp hval
    have hkc : k ∈ cols := by
      have hkk : k ∈ dictKeys (columnMapping cols) := List.mem_map_of_mem Prod.fst hk
      rcases foldl_keys_subset cols [] k hkk with h0 | h0
      · simp [dictKeys] at h0
      · exact h0
    have hnodupkeys : (dictKeys (columnMapping cols)).Nodup :=
      foldl_keys_nodup cols [] hnd (by intro c _ hc; simp [dictKeys] at hc) (by simp [dictKeys])
    exact List.mem_map.mpr ⟨k, hkc, by unfold renameCol; rw [dictGet_of_mem hnodupkeys hk]; rfl⟩

/-- Claim C6, amended.  For duplicate-free stripped column names (the
CSV reader's output format), if after processing all columns any
canonical field has no assigned source column in the final mapping, then
`load_data` fails with an error carrying exactly the list of ALL
unassigned canonical fields, in the fixed order Title, Price, Rating,
Availability, and produces no frame.  (With colliding stripped names the
name-keyed dict can be overwritten and a leftover literal column can
mask the failure, see the counterexample.) -/
theorem C6_amended (t : RawTable)
    (hnd : (t.headers.map pyStrip).Nodup)
    (hmiss :
      requiredCols.filter
        (fun f => !dictHasVal (columnMapping (t.headers.map pyStrip)) f) ≠ []) :
    load_data t =
      .error (requiredCols.filter
        (fun f => !dictHasVal (columnMapping (t.headers.map pyStrip)) f)) := by
  have hfe :
      (requiredCols.filter fun c =>
          !((t.headers.map pyStrip).map
            (renameCol (columnMapping (t.headers.map pyStrip)))).contains c) =
        requiredCols.filter
          (fun f => !dictHasVal (columnMapping (t.headers.map pyStrip)) f) := by
    apply List.filter_congr
    intro f hf
    have hiff := mem_renamed_iff (t.headers.map pyStrip) hnd f hf
    rcases hv : dictHasVal (columnMapping (t.headers.map pyStrip)) f
    · rcases hcont : ((t.headers.map pyStrip).map
          (renameCol (columnMapping (t.headers.map pyStrip)))).contains f
      · rfl
      · exact absurd (hv ▸ hiff.mp (List.elem_iff.mp hcont)) (by simp)
    · have : ((t.headers.map pyStrip).map
          (renameCol (columnMapping (t.headers.map pyStrip)))).contains f = true :=
        List.elem_iff.mpr (hiff.mpr hv)
      rw [this]
  simp only [load_data]
  rw [hfe, if_neg (fun hemp => hmiss (List.isEmpty_iff.mp hemp))]

/-- Witness for `C6_amended`: a table whose headers resolve Title, Price
and Availability but no Rating column; the failure lists exactly
`["Rating"]`. -/
theorem C6_amended_witness :
    ((["Title", "Price", "Avail"] : List String).map pyStrip).Nodup ∧
    requiredCols.filter
        (fun f => !dictHasVal
          (columnMapping ((["Title", "Price", "Avail"] : List String).map pyStrip)) f) ≠ [] ∧
    load_data ⟨["Title", "Price", "Avail"], []⟩ =
      .error (requiredCols.filter
        (fun f => !dictHasVal
          (columnMapping
            ((⟨["Title", "Price", "Avail"], []⟩ : RawTable).headers.map pyStrip)) f)) :=
  ⟨by decide, by decide, C6_amended _ (by decide) (by decide)⟩

end BooksDashboard
